import Mathlib

set_option maxRecDepth 40000
set_option exponentiation.threshold 1100

/-!
Verification of `src/tools/decompress.py` (vgz2vgm): a tool that recursively
decompresses `.vgz` (gzip) files into `.vgm` files, with an optional
decompressed-size ceiling, a skip-existing mode, and a flat-output mode with
filename disambiguation.

The embedding below translates each function of the source file:

* `parse_size`            — the human-readable size parser (regex
  `(?i)\s*(\d+(?:\.\d+)?)\s*([kmgtp]?b?)?\s*` fullmatched against the
  stripped input).  The numeric value follows the source through Python's
  `float`: the matched decimal is rounded to the nearest IEEE-754 double
  (53-bit significand, round half to even, overflow to infinity), scaled
  exactly by the power-of-two unit multiplier, and truncated by `int()` —
  all computed over naturals in `pyIntOfScaledDecimal`.
* `decompress_vgz`        — the guarded streaming decompressor.  The
  filesystem is modelled by `FS` (content at the destination path, content
  at the `.part` temporary path, and a cumulative count of bytes ever
  written to the temporary path).  The gzip stream is a finite list of
  events: `some n` is a chunk of `n` bytes read and written successfully,
  `none` is a read or write that raises.  Fallible operations outside the
  stream (mkdir, the two opens, replace/rename, unlink) are driven by
  explicit failure flags.  An exception escaping the function is `.error`.
* `_get_unique_flat_path` — the flat-mode collision resolver; its unbounded
  `while True` loop is modelled with explicit fuel.
* `main`                  — `flat_dest` models the flat-output destination
  selection of the main loop, and `main_exit` models the exit status of a
  whole run.
-/

namespace VGZ

/-- Python regex `\s` over ASCII: space, tab, newline, carriage return,
vertical tab, form feed. -/
def isSpace (c : Char) : Bool :=
  c == ' ' || c == '\t' || c == '\n' || c == '\r' || c == '\x0b' || c == '\x0c'

/-! ## Filesystem state and the guarded streaming decompressor -/

/-- Observable filesystem state of one decompression job: the content (byte
count) at the final destination path, the content at the `.part` temporary
path, and a ghost counter of bytes ever written to the temporary path. -/
structure FS where
  dest : Option Nat
  temp : Option Nat
  written : Nat
deriving DecidableEq

/-- Best-effort `temp_path.unlink()` inside an `except: pass`: removes the
temporary file unless the deletion itself fails, in which case the failure is
swallowed and the file stays. -/
def cleanupTemp (unlinkFails : Bool) (fs : FS) : FS :=
  if unlinkFails then fs else { fs with temp := none }

/-- Result of the chunk-copy loop of `decompress_vgz`: either the loop
returned `False` early (size ceiling crossed, or a read/write raised — in
both cases the temporary file was best-effort unlinked), or end-of-stream was
reached with the given total byte count. -/
inductive StreamOut where
  | aborted (fs : FS)
  | eof (total : Nat) (fs : FS)
deriving DecidableEq

/-- The filesystem component of a `StreamOut`. -/
def StreamOut.state : StreamOut → FS
  | .aborted f => f
  | .eof _ f => f

/-- The `while True` chunk loop of `decompress_vgz` (src lines 125-143):
read up to 65536 bytes; a zero-length read is end-of-stream; otherwise write
the chunk, add its length to the running total, and if a ceiling is
configured and the total exceeds it, unlink the temporary file (best effort)
and stop.  A `none` event is a read or write that raises; the surrounding
`except` block then unlinks the temporary file (best effort) and stops. -/
def streamLoop (maxSize : Option Nat) (unlinkFails : Bool) :
    List (Option Nat) → Nat → FS → StreamOut
  | [], total, fs => .eof total fs
  | none :: _, _, fs => .aborted (cleanupTemp unlinkFails fs)
  | some n :: rest, total, fs =>
    if n = 0 then .eof total fs
    else
      match maxSize with
      | some c =>
        if c < total + n then
          .aborted (cleanupTemp unlinkFails
            { fs with temp := some (total + n), written := fs.written + n })
        else
          streamLoop maxSize unlinkFails rest (total + n)
            { fs with temp := some (total + n), written := fs.written + n }
      | none =>
        streamLoop maxSize unlinkFails rest (total + n)
          { fs with temp := some (total + n), written := fs.written + n }

/-- `decompress_vgz` (src lines 100-160).  Control flow of the source:
skip-existing check, then `out_path.parent.mkdir(...)` — note: before the
`try` block, so a mkdir failure propagates (`.error`) — then inside `try`:
open the gzip source and the truncating temporary file (a failure in either
is caught, the stale temporary is best-effort unlinked, and `False` is
returned), the chunk loop, and on end-of-stream `replace` (falling back to
`rename`; if both raise, the outer `except` unlinks the temporary and
returns `False`), which publishes the total at the destination. -/
def decompress_vgz (skipExisting : Bool) (maxSize : Option Nat)
    (mkdirFails openFails replaceFails unlinkFails : Bool)
    (events : List (Option Nat)) (fs : FS) : Except Unit (Bool × FS) :=
  if skipExisting && fs.dest.isSome then .ok (false, fs)
  else if mkdirFails then .error ()
  else if openFails then .ok (false, cleanupTemp unlinkFails fs)
  else
    match streamLoop maxSize unlinkFails events 0 { fs with temp := some 0 } with
    | .aborted fs' => .ok (false, fs')
    | .eof total fs' =>
      if replaceFails then .ok (false, cleanupTemp unlinkFails fs')
      else .ok (true, { fs' with dest := some total, temp := none })

/-! ## The size parser -/

/-- A match of the size regex: the integer digits, the digits after the
decimal point (empty when there is no fractional part), and the unit group. -/
structure SizeMatch where
  intPart : List Char
  fracPart : List Char
  unitPart : List Char
deriving DecidableEq

/-- The letters of the regex character class `[kmgtp]`, case-insensitively. -/
def isUnitLetter (c : Char) : Bool :=
  c.toUpper == 'K' || c.toUpper == 'M' || c.toUpper == 'G' ||
  c.toUpper == 'T' || c.toUpper == 'P'

/-- The optional `b` of the unit group, case-insensitively. -/
def isBLetter (c : Char) : Bool := c == 'b' || c == 'B'

/-- The optional fractional part `(?:\.\d+)?`: consumes `.` followed by at
least one digit, returning the fraction digits and the rest; otherwise
consumes nothing. -/
def matchFrac : List Char → List Char × List Char
  | [] => ([], [])
  | c :: rest =>
    if c = '.' then
      if (rest.takeWhile Char.isDigit).isEmpty then ([], c :: rest)
      else (rest.takeWhile Char.isDigit, rest.dropWhile Char.isDigit)
    else ([], c :: rest)

/-- The unit group `([kmgtp]?b?)?`, matched greedily: an optional unit
letter followed by an optional `b`. -/
def matchUnit : List Char → List Char × List Char
  | [] => ([], [])
  | c :: rest =>
    if isUnitLetter c then
      match rest with
      | [] => ([c], [])
      | b :: rest2 => if isBLetter b then ([c, b], rest2) else ([c], rest)
    else if isBLetter c then ([c], rest)
    else ([], c :: rest)

/-- Full match of `(?i)\s*(\d+(?:\.\d+)?)\s*([kmgtp]?b?)?\s*` against a
character list, following the greedy left-to-right reading of the regex. -/
def matchSize (cs : List Char) : Option SizeMatch :=
  let r1 := cs.dropWhile isSpace
  let ds := r1.takeWhile Char.isDigit
  let r2 := r1.dropWhile Char.isDigit
  let fds := (matchFrac r2).1
  let r3 := (matchFrac r2).2
  let r4 := r3.dropWhile isSpace
  let u := (matchUnit r4).1
  let r5 := (matchUnit r4).2
  let r6 := r5.dropWhile isSpace
  if ds.isEmpty then none
  else if r6.isEmpty then some { intPart := ds, fracPart := fds, unitPart := u }
  else none

/-- Value of a run of decimal digits. -/
def digitsToNat (ds : List Char) : Nat :=
  ds.foldl (fun a c => a * 10 + (c.toNat - '0'.toNat)) 0

/-- The base-two exponent of the multiplier chosen by the
`unit.startswith` chain of `parse_size`: `K`, `M`, `G`, `T` scale by
`2^10`, `2^20`, `2^30`, `2^40`; everything else — including the
regex-accepted `P` and a bare `B` — leaves the number unchanged (`2^0`). -/
def unitPow (u : List Char) : Nat :=
  match u with
  | [] => 0
  | c :: _ =>
    if c.toUpper = 'K' then 10
    else if c.toUpper = 'M' then 20
    else if c.toUpper = 'G' then 30
    else if c.toUpper = 'T' then 40
    else 0

/-- Round `a / b` to the nearest integer, ties to even — the rounding IEEE
754 applies to the 53-bit significand when `float()` converts a decimal. -/
def rhe (a b : ℕ) : ℕ :=
  let q := a / b
  let r := a % b
  if 2 * r < b then q
  else if b < 2 * r then q + 1
  else if q % 2 = 0 then q else q + 1

/-- Smallest `i ≥ j` with `T ≤ N * 2^i`, searched with fuel (the search is
bounded: callers use it only for values between `2^-42` and `2^1024`, where
at most 1067 steps are needed). -/
def findShift (N T : ℕ) : Nat → Nat → Nat
  | 0, j => j
  | fuel + 1, j => if T ≤ N * 2 ^ j then j else findShift N T fuel (j + 1)

/-- Python `int(float(d) * 2^p)` where `d` is the non-negative decimal
`n / 10^k`: `float()` rounds the decimal to the nearest IEEE-754 double
(53-bit significand, round half to even; values reaching `2^1024` become
infinite), the multiplication by the power-of-two unit multiplier is exact
apart from overflow to infinity, and `int()` truncates; `none` is the
infinite case, whose `int()` raises OverflowError.  Values below `2^-42`
truncate to 0 after scaling by at most `2^40` under any rounding, so they
are short-circuited; subnormal rounding (below `2^-1022`) differs from a
real double only in digits that the final truncation discards. -/
def pyIntOfScaledDecimal (n k p : ℕ) : Option Nat :=
  let D := 10 ^ k
  if n = 0 then some 0
  else if D * 2 ^ 1024 ≤ n then none
  else if n * 2 ^ 42 < D then some 0
  else
    let j := findShift n (D * 2 ^ 1024) 1100 0
    let s := rhe (n * 2 ^ j) (D * 2 ^ 972)
    if 2 ^ 1024 * 2 ^ j ≤ s * 2 ^ 972 * 2 ^ p then none
    else some (s * 2 ^ (972 + p) / 2 ^ j)

/-- `int(num)` where `num = float(<matched decimal>)` scaled by the unit
multiplier: the decimal `i.f` is `(i * 10^k + f) / 10^k` with `k` fraction
digits, pushed through the double-precision pipeline above. -/
def sizeValue (m : SizeMatch) : Option Nat :=
  pyIntOfScaledDecimal
    (digitsToNat m.intPart * 10 ^ m.fracPart.length + digitsToNat m.fracPart)
    m.fracPart.length (unitPow m.unitPart)

/-- Python `str.strip()` over the modelled whitespace. -/
def strip (cs : List Char) : List Char :=
  ((cs.dropWhile isSpace).reverse.dropWhile isSpace).reverse

/-- `parse_size` (src lines 47-68).  A falsy input (absent or empty string)
yields no ceiling; otherwise the stripped string is fullmatched against the
size regex; a failed match raises `ArgumentTypeError` (`.error`); a match
yields `int(float(<number>) * mult)`, and an infinite `float` makes `int()`
raise OverflowError (also `.error`; the only caller catches every
exception alike). -/
def parse_size : Option String → Except Unit (Option Nat)
  | none => .ok none
  | some s =>
    if s.data.isEmpty then .ok none
    else
      match matchSize (strip s.data) with
      | none => .error ()
      | some m =>
        match sizeValue m with
        | none => .error ()
        | some v => .ok (some v)

/-! ## Declarative size-string patterns

`SizeForm` transcribes the spec's sentence "a non-negative decimal number
followed by an optional unit letter (case-insensitive, optional trailing
`B`), surrounded by optional whitespace" as a decomposition of the string,
parameterised by the set of accepted unit letters and by whether whitespace
may separate the number from the unit. -/

/-- A run of whitespace characters. -/
def SpaceRun (l : List Char) : Prop := ∀ c ∈ l, isSpace c = true

/-- A run of decimal digits. -/
def DigitRun (l : List Char) : Prop := ∀ c ∈ l, c.isDigit = true

/-- The claimed unit letters `K`, `M`, `G`, `T` (case-insensitive). -/
def isSpecUnitLetter (c : Char) : Bool :=
  c.toUpper == 'K' || c.toUpper == 'M' || c.toUpper == 'G' || c.toUpper == 'T'

/-- An optional unit letter (drawn from `letter`) followed by an optional
trailing `b`/`B`. -/
def UnitShape (letter : Char → Bool) (u : List Char) : Prop :=
  u = [] ∨ (∃ c, u = [c] ∧ (letter c = true ∨ isBLetter c = true)) ∨
  (∃ c b, u = [c, b] ∧ letter c = true ∧ isBLetter b = true)

/-- The shape `<whitespace> <number> [<whitespace>] [unit] <whitespace>`:
`allowMid = false` forbids whitespace between number and unit (the pattern
as the claim states it), `allowMid = true` allows it (as the code's regex
does). -/
def SizeForm (letter : Char → Bool) (allowMid : Bool) (s : String) : Prop :=
  ∃ w1 ds fr w2 u w3, s.data = w1 ++ ds ++ fr ++ w2 ++ u ++ w3 ∧
    SpaceRun w1 ∧ ds ≠ [] ∧ DigitRun ds ∧
    (fr = [] ∨ ∃ fds, fr = '.' :: fds ∧ fds ≠ [] ∧ DigitRun fds) ∧
    SpaceRun w2 ∧ (allowMid = false → w2 = []) ∧
    UnitShape letter u ∧ SpaceRun w3

/-- The concrete alphabet of the regex class `[kmgtp]` with `(?i)`. -/
def unitLetterChars : List Char := ['k', 'K', 'm', 'M', 'g', 'G', 't', 'T', 'p', 'P']

/-- The concrete alphabet of the regex's optional `b` with `(?i)`. -/
def bLetterChars : List Char := ['b', 'B']

/-- The concrete spellings of the unit group `([kmgtp]?b?)?`: empty, one
unit or `b` letter, or a unit letter followed by a `b` letter. -/
def UnitChars (u : List Char) : Prop :=
  u = [] ∨ (∃ c, u = [c] ∧ c ∈ unitLetterChars ++ bLetterChars) ∨
  (∃ c b, u = [c, b] ∧ c ∈ unitLetterChars ∧ b ∈ bLetterChars)

/-! ## Flat-output destination resolution -/

/-- The candidate filename `f"{stem}-{i}{ext}"`. -/
def candName (stem ext : List Char) (i : Nat) : List Char :=
  stem ++ '-' :: (Nat.repr i).data ++ ext

/-- Python `name.rsplit(".", 1)` packaged as the source does: when the name
contains a dot, split at the last dot and keep the dot with the extension;
otherwise the extension is empty. -/
def rsplitDot (name : List Char) : List Char × List Char :=
  if '.' ∈ name then
    ((((name.reverse).dropWhile (fun c => c ≠ '.')).tail).reverse,
      '.' :: ((name.reverse).takeWhile (fun c => c ≠ '.')).reverse)
  else (name, [])

/-- The `while True` loop of `_get_unique_flat_path`, with explicit fuel:
try `candName stem ext i`, incrementing `i` until an unused name is found. -/
def uniqueFrom (existing : List (List Char)) (stem ext : List Char) :
    Nat → Nat → Option (List Char)
  | _, 0 => none
  | i, fuel + 1 =>
    if candName stem ext i ∈ existing then uniqueFrom existing stem ext (i + 1) fuel
    else some (candName stem ext i)

/-- `_get_unique_flat_path` (src lines 77-97): return `name` if it is free
in the output directory, else insert `-1`, `-2`, … before the extension
until a free name is found.  The set of names present in the output
directory is `existing`; the unbounded loop carries explicit fuel. -/
def _get_unique_flat_path (fuel : Nat) (existing : List (List Char))
    (name : List Char) : Option (List Char) :=
  if name ∈ existing then
    uniqueFrom existing (rsplitDot name).1 (rsplitDot name).2 1 fuel
  else some name

/-- The flat-output destination selection of the main loop (src lines
177-185): if `--skip-existing` is set and the plain candidate name exists,
skip the job (`none`); otherwise resolve with `_get_unique_flat_path`. -/
def flat_dest (skipExisting : Bool) (existing : List (List Char))
    (destName : List Char) (fuel : Nat) : Option (List Char) :=
  if skipExisting && decide (destName ∈ existing) then none
  else _get_unique_flat_path fuel existing destName

/-! ## The main entry point -/

/-- Per-file inputs of one `decompress_vgz` call made by the main loop. -/
structure JobIn where
  mkdirFails : Bool
  openFails : Bool
  replaceFails : Bool
  unlinkFails : Bool
  events : List (Option Nat)
  fs : FS
deriving DecidableEq

/-- The walk over the discovered files: each job runs `decompress_vgz`; an
exception escaping a job aborts the walk. -/
def runJobs (skipExisting : Bool) (maxSize : Option Nat) :
    List JobIn → Except Unit Unit
  | [] => .ok ()
  | j :: rest =>
    match decompress_vgz skipExisting maxSize j.mkdirFails j.openFails
        j.replaceFails j.unlinkFails j.events j.fs with
    | .error e => .error e
    | .ok _ => runJobs skipExisting maxSize rest

/-- Exit status of `main` (src lines 163-195): `--max-size` parse failure
exits 2; a missing input directory exits 1; otherwise the walk runs and a
normal return exits 0, while an exception escaping a job terminates the
process abnormally (`.error`, Python's unhandled-exception exit). -/
def main_exit (maxSizeStr : Option String) (inputDirOk : Bool)
    (skipExisting : Bool) (jobs : List JobIn) : Except Unit Nat :=
  match parse_size maxSizeStr with
  | .error _ => .ok 2
  | .ok maxSize =>
    if inputDirOk then
      match runJobs skipExisting maxSize jobs with
      | .error _ => .error ()
      | .ok _ => .ok 0
    else .ok 1

/-- Decidable equality for `Except`, for concrete evaluation of results. -/
def exceptDecEq {ε α : Type} [DecidableEq ε] [DecidableEq α] :
    (a b : Except ε α) → Decidable (a = b)
  | .error a, .error b =>
    if h : a = b then .isTrue (by rw [h]) else .isFalse (fun hh => h (by injection hh))
  | .ok a, .ok b =>
    if h : a = b then .isTrue (by rw [h]) else .isFalse (fun hh => h (by injection hh))
  | .error _, .ok _ => .isFalse (fun hh => Except.noConfusion hh)
  | .ok _, .error _ => .isFalse (fun hh => Except.noConfusion hh)

instance {ε α : Type} [DecidableEq ε] [DecidableEq α] : DecidableEq (Except ε α) :=
  exceptDecEq

end VGZ

namespace VGZ

/-! ## Basic lemmas about the stream loop and cleanup -/

lemma cleanupTemp_dest (u : Bool) (fs : FS) : (cleanupTemp u fs).dest = fs.dest := by
  unfold cleanupTemp; split <;> rfl

lemma cleanupTemp_written (u : Bool) (fs : FS) :
    (cleanupTemp u fs).written = fs.written := by
  unfold cleanupTemp; split <;> rfl

lemma cleanupTemp_none (fs : FS) : (cleanupTemp false fs).temp = none := rfl

lemma streamLoop_state_dest (m : Option Nat) (u : Bool) :
    ∀ (evs : List (Option Nat)) (t : Nat) (fs : FS),
      ((streamLoop m u evs t fs).state).dest = fs.dest := by
  intro evs
  induction evs with
  | nil => intro t fs; rfl
  | cons e rest ih =>
    intro t fs
    cases e with
    | none => simp [streamLoop, StreamOut.state, cleanupTemp_dest]
    | some n =>
      by_cases hn : n = 0
      · subst hn; simp [streamLoop, StreamOut.state]
      · cases m with
        | none => simpa [streamLoop, hn] using ih (t + n) _
        | some c =>
          by_cases hc : c < t + n
          · simp [streamLoop, hn, hc, StreamOut.state, cleanupTemp_dest]
          · simpa [streamLoop, hn, hc] using ih (t + n) _

lemma streamLoop_aborted_temp (m : Option Nat) :
    ∀ (evs : List (Option Nat)) (t : Nat) (fs fs' : FS),
      streamLoop m false evs t fs = .aborted fs' → fs'.temp = none := by
  intro evs
  induction evs with
  | nil => intro t fs fs' h; simp [streamLoop] at h
  | cons e rest ih =>
    intro t fs fs' h
    cases e with
    | none =>
      simp only [streamLoop, StreamOut.aborted.injEq] at h
      rw [← h]; rfl
    | some n =>
      by_cases hn : n = 0
      · subst hn; simp [streamLoop] at h
      · cases m with
        | none =>
          simp only [streamLoop, if_neg hn] at h
          exact ih (t + n) _ fs' h
        | some c =>
          by_cases hc : c < t + n
          · simp only [streamLoop, if_neg hn, if_pos hc, StreamOut.aborted.injEq] at h
            rw [← h]; rfl
          · simp only [streamLoop, if_neg hn, if_neg hc] at h
            exact ih (t + n) _ fs' h

lemma streamLoop_eof_of_le (m : Option Nat) (u : Bool) :
    ∀ (chunks : List Nat) (t : Nat) (fs : FS),
      (∀ n ∈ chunks, n ≠ 0) →
      (∀ c, m = some c → t + chunks.sum ≤ c) →
      fs.temp = some t →
      streamLoop m u (chunks.map some) t fs =
        .eof (t + chunks.sum) ⟨fs.dest, some (t + chunks.sum), fs.written + chunks.sum⟩ := by
  intro chunks
  induction chunks with
  | nil =>
    intro t fs hpos hc ht
    cases fs with
    | mk d tp w => simp at ht; simp [streamLoop, ht]
  | cons n rest ih =>
    intro t fs hpos hc ht
    have hn : n ≠ 0 := hpos n (by simp)
    have hrest : ∀ k ∈ rest, k ≠ 0 := fun k hk => hpos k (by simp [hk])
    have hc' : ∀ c, m = some c → (t + n) + rest.sum ≤ c := by
      intro c hm
      have := hc c hm
      simp [List.sum_cons] at this
      omega
    have step : streamLoop m u ((n :: rest).map some) t fs =
        streamLoop m u (rest.map some) (t + n)
          { fs with temp := some (t + n), written := fs.written + n } := by
      cases m with
      | none => simp [streamLoop, hn]
      | some c =>
        have hnc : ¬ c < t + n := by
          have := hc' c rfl
          omega
        simp [streamLoop, hn, hnc]
    rw [step, ih (t + n) _ hrest hc' rfl]
    have h1 : t + n + rest.sum = t + (n :: rest).sum := by
      simp [List.sum_cons]; omega
    have h2 : fs.written + n + rest.sum = fs.written + (n :: rest).sum := by
      simp [List.sum_cons]; omega
    rw [h1, h2]

lemma streamLoop_aborted_of_gt (u : Bool) :
    ∀ (chunks : List Nat) (c t : Nat) (fs : FS),
      (∀ n ∈ chunks, n ≠ 0) → t ≤ c → c < t + chunks.sum →
      ∃ fs', streamLoop (some c) u (chunks.map some) t fs = .aborted fs' := by
  intro chunks
  induction chunks with
  | nil => intro c t fs hpos hle hgt; simp [List.sum_nil] at hgt; omega
  | cons n rest ih =>
    intro c t fs hpos hle hgt
    have hn : n ≠ 0 := hpos n (by simp)
    by_cases hc : c < t + n
    · refine ⟨cleanupTemp u { fs with temp := some (t + n), written := fs.written + n }, ?_⟩
      simp [streamLoop, hn, hc]
    · have hle' : t + n ≤ c := by omega
      have hgt' : c < (t + n) + rest.sum := by
        simp [List.sum_cons] at hgt; omega
      obtain ⟨fs', hfs'⟩ := ih c (t + n)
        { fs with temp := some (t + n), written := fs.written + n }
        (fun k hk => hpos k (by simp [hk])) hle' hgt'
      exact ⟨fs', by simp [streamLoop, hn, hc]; exact hfs'⟩

lemma streamLoop_written_le (u : Bool) :
    ∀ (evs : List (Option Nat)) (c t : Nat) (fs : FS),
      (∀ e ∈ evs, ∀ n, e = some n → n ≤ 65536) → t ≤ c →
      ((streamLoop (some c) u evs t fs).state).written ≤ fs.written + (c - t) + 65536 := by
  intro evs
  induction evs with
  | nil => intro c t fs hb hle; simp [streamLoop, StreamOut.state]; omega
  | cons e rest ih =>
    intro c t fs hb hle
    cases e with
    | none =>
      simp [streamLoop, StreamOut.state, cleanupTemp_written]
      omega
    | some n =>
      have hn65 : n ≤ 65536 := hb (some n) (by simp) n rfl
      by_cases hn : n = 0
      · subst hn; simp [streamLoop, StreamOut.state]; omega
      · by_cases hc : c < t + n
        · simp [streamLoop, hn, hc, StreamOut.state, cleanupTemp_written]
          omega
        · have := ih c (t + n)
            { fs with temp := some (t + n), written := fs.written + n }
            (fun e he => hb e (by simp [he])) (by omega)
          simp only [streamLoop, if_neg hn, if_neg hc]
          simp at this
          omega

/-! ## Lemmas about `decompress_vgz` as a whole -/

lemma decompress_ok_of_mkdir_ok (sk : Bool) (m : Option Nat) (op rp ul : Bool)
    (evs : List (Option Nat)) (fs : FS) :
    ∃ r, decompress_vgz sk m false op rp ul evs fs = .ok r := by
  unfold decompress_vgz
  cases hs : (sk && fs.dest.isSome) with
  | true => exact ⟨(false, fs), by simp [hs]⟩
  | false =>
    cases op with
    | true => exact ⟨(false, cleanupTemp ul fs), by simp [hs]⟩
    | false =>
      cases hsl : streamLoop m ul evs 0 { fs with temp := some 0 } with
      | aborted fs' => exact ⟨(false, fs'), by simp [hs, hsl]⟩
      | eof total fs' =>
        cases rp with
        | true => exact ⟨(false, cleanupTemp ul fs'), by simp [hs, hsl]⟩
        | false =>
          exact ⟨(true, { fs' with dest := some total, temp := none }),
            by simp [hs, hsl]⟩

lemma decompress_false_dest (sk : Bool) (m : Option Nat) (mk op rp ul : Bool)
    (evs : List (Option Nat)) (fs : FS) (b : Bool) (fs' : FS)
    (h : decompress_vgz sk m mk op rp ul evs fs = .ok (b, fs')) (hb : b = false) :
    fs'.dest = fs.dest := by
  subst hb
  unfold decompress_vgz at h
  split at h
  · injection h with h'
    rw [← ((Prod.mk.injEq _ _ _ _).mp h' |>.2)]
  · split at h
    · exact Except.noConfusion h
    · split at h
      · injection h with h'
        rw [← ((Prod.mk.injEq _ _ _ _).mp h' |>.2), cleanupTemp_dest]
      · cases hsl : streamLoop m ul evs 0 { fs with temp := some 0 } with
        | aborted fs1 =>
          rw [hsl] at h
          have hd := streamLoop_state_dest m ul evs 0 { fs with temp := some 0 }
          rw [hsl] at hd
          simp only [StreamOut.state] at hd
          injection h with h'
          rw [← ((Prod.mk.injEq _ _ _ _).mp h' |>.2)]
          exact hd
        | eof total fs1 =>
          rw [hsl] at h
          have hd := streamLoop_state_dest m ul evs 0 { fs with temp := some 0 }
          rw [hsl] at hd
          simp only [StreamOut.state] at hd
          split at h
          · rename_i heq
            exact absurd heq (by simp)
          · rename_i t2 f2 heq
            injection heq with he1 he2
            split at h
            · injection h with h'
              rw [← ((Prod.mk.injEq _ _ _ _).mp h' |>.2), cleanupTemp_dest, ← he2]
              exact hd
            · injection h with h'
              exact absurd ((Prod.mk.injEq _ _ _ _).mp h' |>.1).symm (by simp)


/-! ## Claim C1: abort paths roll back -/

/-- C1: whenever `decompress_vgz` aborts during streaming — because the
running size counter exceeded the configured ceiling or because a read/write
raised — it returns "not created" (`False`), the destination path is
untouched, and the `.part` temporary file is deleted best-effort (if the
deletion does not itself fail, the temporary is gone; a deletion failure is
swallowed, as witnessed by the call still returning `.ok`). -/
theorem C1_abort_rollback (skipExisting : Bool) (maxSize : Option Nat)
    (unlinkFails : Bool) (events : List (Option Nat)) (fs fs' : FS)
    (hskip : (skipExisting && fs.dest.isSome) = false)
    (hab : streamLoop maxSize unlinkFails events 0 { fs with temp := some 0 }
      = .aborted fs') :
    decompress_vgz skipExisting maxSize false false false unlinkFails events fs
        = .ok (false, fs')
      ∧ fs'.dest = fs.dest ∧ (unlinkFails = false → fs'.temp = none) := by
  refine ⟨?_, ?_, ?_⟩
  · simp [decompress_vgz, hskip, hab]
  · have hd := streamLoop_state_dest maxSize unlinkFails events 0
      { fs with temp := some 0 }
    rw [hab] at hd
    simpa [StreamOut.state] using hd
  · intro hu
    subst hu
    exact streamLoop_aborted_temp maxSize events 0 _ fs' hab

/-- C1 witness: concrete size-exceeding run (ceiling 5, one 6-byte chunk). -/
theorem C1_witness :
    decompress_vgz false (some 5) false false false false [some 6] ⟨none, none, 0⟩
        = .ok (false, ⟨none, none, 6⟩)
      ∧ (⟨none, none, 6⟩ : FS).dest = (⟨none, none, 0⟩ : FS).dest
      ∧ (false = false → (⟨none, none, 6⟩ : FS).temp = none) :=
  C1_abort_rollback false (some 5) false [some 6] ⟨none, none, 0⟩ ⟨none, none, 6⟩
    rfl rfl

/-! ## Claim C2: ceiling boundary -/

/-- C2: with ceiling `c`, a stream whose decompressed size is exactly `c` is
accepted (published at the destination, `True` returned), while any
decompressed size strictly above `c` is discarded (`False` returned, the
destination untouched and the temporary file removed). -/
theorem C2_ceiling_boundary (c : Nat) (chunks : List Nat) (fs : FS)
    (hpos : ∀ n ∈ chunks, n ≠ 0) :
    (chunks.sum = c →
      decompress_vgz false (some c) false false false false (chunks.map some) fs
        = .ok (true, ⟨some c, none, fs.written + c⟩))
    ∧ (c < chunks.sum →
      ∃ fs', decompress_vgz false (some c) false false false false (chunks.map some) fs
          = .ok (false, fs') ∧ fs'.dest = fs.dest ∧ fs'.temp = none) := by
  constructor
  · intro hsum
    subst hsum
    have heof := streamLoop_eof_of_le (some chunks.sum) false chunks 0
      { fs with temp := some 0 } hpos
      (by intro c' hc'; injection hc' with h; omega) rfl
    simp [decompress_vgz, heof]
  · intro hgt
    obtain ⟨fs', hab⟩ := streamLoop_aborted_of_gt false chunks c 0
      { fs with temp := some 0 } hpos (Nat.zero_le c) (by omega)
    refine ⟨fs', ?_, ?_, ?_⟩
    · simp [decompress_vgz, hab]
    · have hd := streamLoop_state_dest (some c) false (chunks.map some) 0
        { fs with temp := some 0 }
      rw [hab] at hd
      simpa [StreamOut.state] using hd
    · exact streamLoop_aborted_temp (some c) (chunks.map some) 0 _ fs' hab

/-- C2 witness: a single 5-byte chunk against ceiling 5 is published. -/
theorem C2_witness :
    decompress_vgz false (some 5) false false false false ([5].map some)
        ⟨none, none, 0⟩ = .ok (true, ⟨some 5, none, 5⟩) :=
  (C2_ceiling_boundary 5 [5] ⟨none, none, 0⟩ (by decide)).1 rfl

/-! ## Claim C3: error containment (corrected) -/

/-- C3 counterexample: a failure while creating the destination parent
directory happens before the `try` block of `decompress_vgz`, so it
propagates out of the job instead of being caught and reported as "not
created" — refuting the claim that every per-file failure of the OPEN phase
(which comprises creating the destination parent directory) is contained. -/
theorem C3_counterexample :
    decompress_vgz false none true false false false [] ⟨none, none, 0⟩ = .error ()
    ∧ ∀ r, decompress_vgz false none true false false false [] ⟨none, none, 0⟩
        ≠ .ok r := by
  constructor
  · rfl
  · intro r h
    rw [show decompress_vgz false none true false false false [] ⟨none, none, 0⟩
        = Except.error () from rfl] at h
    exact Except.noConfusion h

/-- C3 (amended): every per-file failure raised inside the `try` block is
caught and reported as "not created": the job never raises when mkdir
succeeds, a failure opening the gzip source or the temporary file returns
`False` (with the stale temporary best-effort unlinked), a read/write
failure during streaming returns `False`, and a failure of the final
replace/rename returns `False` — but a failure in the parent-directory
creation step, which precedes the `try` block, propagates out of the job
(and hence aborts the walk, whose loop has no handler). -/
theorem C3_amended_containment (skipExisting : Bool) (maxSize : Option Nat)
    (openFails replaceFails unlinkFails : Bool) (events : List (Option Nat))
    (fs : FS) (hskip : (skipExisting && fs.dest.isSome) = false) :
    (∃ r, decompress_vgz skipExisting maxSize false openFails replaceFails
        unlinkFails events fs = .ok r)
    ∧ (openFails = true →
        decompress_vgz skipExisting maxSize false openFails replaceFails
          unlinkFails events fs = .ok (false, cleanupTemp unlinkFails fs))
    ∧ (∀ fs', openFails = false →
        streamLoop maxSize unlinkFails events 0 { fs with temp := some 0 }
          = .aborted fs' →
        decompress_vgz skipExisting maxSize false openFails replaceFails
          unlinkFails events fs = .ok (false, fs'))
    ∧ (∀ total fs', openFails = false → replaceFails = true →
        streamLoop maxSize unlinkFails events 0 { fs with temp := some 0 }
          = .eof total fs' →
        decompress_vgz skipExisting maxSize false openFails replaceFails
          unlinkFails events fs = .ok (false, cleanupTemp unlinkFails fs'))
    ∧ decompress_vgz skipExisting maxSize true openFails replaceFails
        unlinkFails events fs = .error () := by
  refine ⟨decompress_ok_of_mkdir_ok _ _ _ _ _ _ _, ?_, ?_, ?_, ?_⟩
  · intro ho
    subst ho
    simp [decompress_vgz, hskip]
  · intro fs' ho hab
    subst ho
    simp [decompress_vgz, hskip, hab]
  · intro total fs' ho hr heof
    subst ho
    subst hr
    simp [decompress_vgz, hskip, heof]
  · simp [decompress_vgz, hskip]

/-- C3 witness: with mkdir succeeding, an open failure, a streaming
failure, and a replace failure each report "not created"; with mkdir
failing, the job raises. -/
theorem C3_witness :
    decompress_vgz false none false true false false [] ⟨none, none, 0⟩
        = .ok (false, cleanupTemp false ⟨none, none, 0⟩)
    ∧ decompress_vgz false none false false false false [none] ⟨none, none, 0⟩
        = .ok (false, ⟨none, none, 0⟩)
    ∧ decompress_vgz false none false false true false [] ⟨none, none, 0⟩
        = .ok (false, cleanupTemp false ⟨none, some 0, 0⟩)
    ∧ decompress_vgz false none true false false false [] ⟨none, none, 0⟩
        = .error () :=
  ⟨(C3_amended_containment false none true false false [] ⟨none, none, 0⟩
      rfl).2.1 rfl,
   (C3_amended_containment false none false false false [none] ⟨none, none, 0⟩
      rfl).2.2.1 ⟨none, none, 0⟩ rfl rfl,
   (C3_amended_containment false none false true false [] ⟨none, none, 0⟩
      rfl).2.2.2.1 0 ⟨none, some 0, 0⟩ rfl rfl rfl,
   (C3_amended_containment false none true false false [] ⟨none, none, 0⟩
      rfl).2.2.2.2⟩

/-! ## Claim C4: end-of-stream publishes -/

/-- C4: a job that reaches end-of-stream without the counter ever exceeding
the ceiling replaces the destination with the temporary file — regardless of
any previous content of the destination — reporting the total byte count and
`True`; and this publish is the only point at which the destination changes:
any call returning `False` leaves the destination exactly as it was. -/
theorem C4_eos_publishes (maxSize : Option Nat) (chunks : List Nat) (fs : FS)
    (hpos : ∀ n ∈ chunks, n ≠ 0)
    (hbound : ∀ c, maxSize = some c → chunks.sum ≤ c) :
    decompress_vgz false maxSize false false false false (chunks.map some) fs
        = .ok (true, ⟨some chunks.sum, none, fs.written + chunks.sum⟩)
    ∧ ∀ (sk : Bool) (m : Option Nat) (mk op rp ul : Bool)
        (evs : List (Option Nat)) (g : FS) (b : Bool) (g' : FS),
        decompress_vgz sk m mk op rp ul evs g = .ok (b, g') → b = false →
        g'.dest = g.dest := by
  constructor
  · have heof := streamLoop_eof_of_le maxSize false chunks 0
      { fs with temp := some 0 } hpos
      (by intro c hc; exact Nat.le_trans (by omega) (hbound c hc)) rfl
    simp [decompress_vgz, heof]
  · exact fun sk m mk op rp ul evs g b g' h hb =>
      decompress_false_dest sk m mk op rp ul evs g b g' h hb

/-- C4 witness: a 3-byte stream with no ceiling overwrites a pre-existing
7-byte destination. -/
theorem C4_witness :
    decompress_vgz false none false false false false ([3].map some)
        ⟨some 7, none, 0⟩ = .ok (true, ⟨some 3, none, 3⟩) :=
  (C4_eos_publishes none [3] ⟨some 7, none, 0⟩ (by decide)
    (fun c hc => Option.noConfusion hc)).1

/-! ## Claim C10: bytes written are bounded by ceiling + chunk size -/

/-- C10: when a ceiling `c` is configured and every chunk read from the
stream is at most 65536 bytes (as `f_in.read(65536)` guarantees), the bytes
ever written to the temporary file over the whole call are at most
`c + 65536`: the counter is checked after every chunk and no further chunk
is read or written once it exceeds the ceiling. -/
theorem C10_written_bound (skipExisting : Bool) (c : Nat)
    (mkdirFails openFails replaceFails unlinkFails : Bool)
    (events : List (Option Nat)) (fs : FS) (b : Bool) (fs' : FS)
    (hchunk : ∀ e ∈ events, ∀ n, e = some n → n ≤ 65536)
    (h : decompress_vgz skipExisting (some c) mkdirFails openFails replaceFails
        unlinkFails events fs = .ok (b, fs')) :
    fs'.written ≤ fs.written + c + 65536 := by
  unfold decompress_vgz at h
  split at h
  · injection h with h'
    rw [← ((Prod.mk.injEq _ _ _ _).mp h' |>.2)]
    omega
  · split at h
    · exact Except.noConfusion h
    · split at h
      · injection h with h'
        rw [← ((Prod.mk.injEq _ _ _ _).mp h' |>.2), cleanupTemp_written]
        omega
      · have hw := streamLoop_written_le unlinkFails events c 0
          { fs with temp := some 0 } hchunk (Nat.zero_le c)
        cases hsl : streamLoop (some c) unlinkFails events 0
            { fs with temp := some 0 } with
        | aborted fs1 =>
          rw [hsl] at h hw
          simp only [StreamOut.state] at hw
          simp at hw
          injection h with h'
          rw [← ((Prod.mk.injEq _ _ _ _).mp h' |>.2)]
          omega
        | eof total fs1 =>
          rw [hsl] at h hw
          simp only [StreamOut.state] at hw
          simp at hw
          split at h
          · rename_i heq
            exact absurd heq (by simp)
          · rename_i t2 f2 heq
            injection heq with he1 he2
            split at h
            · injection h with h'
              rw [← ((Prod.mk.injEq _ _ _ _).mp h' |>.2), cleanupTemp_written,
                ← he2]
              omega
            · injection h with h'
              rw [← ((Prod.mk.injEq _ _ _ _).mp h' |>.2)]
              show f2.written ≤ fs.written + c + 65536
              rw [← he2]
              omega

/-- C10 witness: ceiling 0, one 1-byte chunk: 1 byte is written in total. -/
theorem C10_witness :
    (⟨none, none, 1⟩ : FS).written ≤ (⟨none, none, 0⟩ : FS).written + 0 + 65536 :=
  C10_written_bound false 0 false false false false [some 1] ⟨none, none, 0⟩
    false ⟨none, none, 1⟩
    (by intro e he n hn
        simp only [List.mem_singleton] at he
        subst he
        injection hn with h2
        omega)
    rfl

/-! ## Claim C9: exit status (corrected) -/

/-- C9 counterexample: a per-file mkdir failure propagates out of the job
and aborts the run abnormally (Python terminates on the unhandled
exception), so such a run does not exit with status 0 as claimed. -/
theorem C9_counterexample :
    main_exit none true false [⟨true, false, false, false, [], ⟨none, none, 0⟩⟩]
        = .error ()
    ∧ main_exit none true false [⟨true, false, false, false, [], ⟨none, none, 0⟩⟩]
        ≠ .ok 0 := by
  constructor
  · rfl
  · intro h
    rw [show main_exit none true false
        [⟨true, false, false, false, [], ⟨none, none, 0⟩⟩] = Except.error ()
        from rfl] at h
    exact Except.noConfusion h

lemma runJobs_ok (sk : Bool) (m : Option Nat) :
    ∀ jobs : List JobIn, (∀ j ∈ jobs, j.mkdirFails = false) →
      runJobs sk m jobs = .ok () := by
  intro jobs
  induction jobs with
  | nil => intro h; rfl
  | cons j rest ih =>
    intro h
    have hj : j.mkdirFails = false := h j (by simp)
    obtain ⟨r, hr⟩ := decompress_ok_of_mkdir_ok sk m j.openFails j.replaceFails
      j.unlinkFails j.events j.fs
    have hstep : runJobs sk m (j :: rest) = runJobs sk m rest := by
      simp only [runJobs, hj, hr]
    rw [hstep]
    exact ih (fun k hk => h k (by simp [hk]))

/-- C9 (amended): the exit status is 2 when `--max-size` fails to parse, 1
when the input directory is invalid, and 0 otherwise provided no per-file
mkdir failure occurs; per-file failures caught inside `decompress_vgz` never
change the exit status from 0 (a propagating mkdir failure instead
terminates the run abnormally, per the counterexample). -/
theorem C9_exit_codes (maxSizeStr : Option String) (inputDirOk skipExisting : Bool)
    (jobs : List JobIn) :
    (parse_size maxSizeStr = .error () →
      main_exit maxSizeStr inputDirOk skipExisting jobs = .ok 2)
    ∧ (∀ v, parse_size maxSizeStr = .ok v → inputDirOk = false →
      main_exit maxSizeStr inputDirOk skipExisting jobs = .ok 1)
    ∧ (∀ v, parse_size maxSizeStr = .ok v → inputDirOk = true →
      (∀ j ∈ jobs, j.mkdirFails = false) →
      main_exit maxSizeStr inputDirOk skipExisting jobs = .ok 0) := by
  refine ⟨?_, ?_, ?_⟩
  · intro hp
    simp [main_exit, hp]
  · intro v hp hd
    subst hd
    simp [main_exit, hp]
  · intro v hp hd hjobs
    subst hd
    simp [main_exit, hp, runJobs_ok skipExisting v jobs hjobs]

/-- C9 witness: an unparsable `--max-size` exits 2; a bad input directory
exits 1; an empty run exits 0. -/
theorem C9_witness :
    main_exit (some "x") true false [] = .ok 2
    ∧ main_exit none false false [] = .ok 1
    ∧ main_exit none true false [] = .ok 0 :=
  ⟨(C9_exit_codes (some "x") true false []).1 rfl,
   (C9_exit_codes none false false []).2.1 none rfl rfl,
   (C9_exit_codes none true false []).2.2 none rfl rfl (by simp)⟩


/-! ## List and character helpers for the size parser -/

lemma dropWhile_all_false (p : Char → Bool) (l : List Char)
    (h : ∀ c ∈ l, p c = false) : l.dropWhile p = l := by
  cases l with
  | nil => rfl
  | cons a t =>
    rw [List.dropWhile_cons, h a (by simp)]
    simp

lemma takeWhile_all_true (p : Char → Bool) :
    ∀ l : List Char, (∀ c ∈ l, p c = true) → l.takeWhile p = l := by
  intro l
  induction l with
  | nil => intro h; rfl
  | cons a t ih =>
    intro h
    rw [List.takeWhile_cons, h a (by simp)]
    simp [ih (fun c hc => h c (by simp [hc]))]

lemma dropWhile_all_true (p : Char → Bool) :
    ∀ l : List Char, (∀ c ∈ l, p c = true) → l.dropWhile p = [] := by
  intro l
  induction l with
  | nil => intro h; rfl
  | cons a t ih =>
    intro h
    rw [List.dropWhile_cons, h a (by simp)]
    simp [ih (fun c hc => h c (by simp [hc]))]

lemma takeWhile_append_stop (p : Char → Bool) :
    ∀ (a : List Char) (b : Char) (r : List Char),
      (∀ c ∈ a, p c = true) → p b = false →
      (a ++ b :: r).takeWhile p = a ∧ (a ++ b :: r).dropWhile p = b :: r := by
  intro a
  induction a with
  | nil =>
    intro b r _ hb
    constructor
    · rw [List.nil_append, List.takeWhile_cons, hb]; simp
    · rw [List.nil_append, List.dropWhile_cons, hb]; simp
  | cons x xs ih =>
    intro b r ha hb
    have hx : p x = true := ha x (by simp)
    obtain ⟨h1, h2⟩ := ih b r (fun c hc => ha c (by simp [hc])) hb
    constructor
    · rw [List.cons_append, List.takeWhile_cons, hx]; simp [h1]
    · rw [List.cons_append, List.dropWhile_cons, hx]; simp [h2]

lemma strip_of_no_space (l : List Char) (h : ∀ c ∈ l, isSpace c = false) :
    strip l = l := by
  unfold strip
  rw [dropWhile_all_false isSpace l h]
  rw [dropWhile_all_false isSpace l.reverse
    (fun c hc => h c (List.mem_reverse.mp hc))]
  exact List.reverse_reverse l

lemma strip_split (l : List Char) :
    ∃ a b, l = a ++ strip l ++ b
      ∧ (∀ c ∈ a, isSpace c = true) ∧ (∀ c ∈ b, isSpace c = true) := by
  have h1 : l = l.takeWhile isSpace ++ l.dropWhile isSpace :=
    (List.takeWhile_append_dropWhile isSpace l).symm
  have h2 : l.dropWhile isSpace
      = strip l ++ ((l.dropWhile isSpace).reverse.takeWhile isSpace).reverse := by
    unfold strip
    conv_lhs => rw [← List.reverse_reverse (l.dropWhile isSpace),
      ← List.takeWhile_append_dropWhile isSpace (l.dropWhile isSpace).reverse]
    rw [List.reverse_append]
  rw [h2] at h1
  refine ⟨l.takeWhile isSpace,
    ((l.dropWhile isSpace).reverse.takeWhile isSpace).reverse, ?_, ?_, ?_⟩
  · rw [← List.append_assoc] at h1
    exact h1
  · intro c hc; exact List.mem_takeWhile_imp hc
  · intro c hc
    exact List.mem_takeWhile_imp (List.mem_reverse.mp hc)

lemma digit_not_space {c : Char} (h : c.isDigit = true) : isSpace c = false := by
  cases hs : isSpace c
  · rfl
  · have hcases : c = ' ' ∨ c = '\t' ∨ c = '\n' ∨ c = '\r' ∨ c = '\x0b' ∨ c = '\x0c' := by
      simpa [isSpace, or_assoc] using hs
    rcases hcases with rfl | rfl | rfl | rfl | rfl | rfl <;> exact absurd h (by decide)

lemma digit_ne_dot {c : Char} (h : c.isDigit = true) : c ≠ '.' := by
  rintro rfl; exact absurd h (by decide)

/-! ## Decomposition of the matcher stages -/

lemma matchFrac_decomp (l : List Char) :
    ((matchFrac l).1 = [] ∧ (matchFrac l).2 = l)
    ∨ (l = '.' :: ((matchFrac l).1 ++ (matchFrac l).2) ∧ (matchFrac l).1 ≠ []
        ∧ DigitRun (matchFrac l).1) := by
  cases l with
  | nil => left; exact ⟨rfl, rfl⟩
  | cons c rest =>
    by_cases hc : c = '.'
    · subst hc
      by_cases he : (rest.takeWhile Char.isDigit).isEmpty = true
      · left
        simp [matchFrac, he]
      · right
        have hne : rest.takeWhile Char.isDigit ≠ [] := by
          simpa [List.isEmpty_iff] using he
        have hmf : matchFrac ('.' :: rest)
            = (rest.takeWhile Char.isDigit, rest.dropWhile Char.isDigit) := by
          simp [matchFrac, he]
        refine ⟨?_, ?_, ?_⟩
        · rw [hmf]
          rw [List.takeWhile_append_dropWhile]
        · rw [hmf]
          exact hne
        · intro x hx
          rw [hmf] at hx
          exact List.mem_takeWhile_imp hx
    · left
      simp [matchFrac, hc]

lemma matchUnit_decomp (l : List Char) :
    l = (matchUnit l).1 ++ (matchUnit l).2
    ∧ UnitShape isUnitLetter (matchUnit l).1 := by
  cases l with
  | nil => exact ⟨rfl, Or.inl rfl⟩
  | cons c rest =>
    cases hc : isUnitLetter c with
    | true =>
      cases rest with
      | nil =>
        refine ⟨by simp [matchUnit, hc], ?_⟩
        right; left
        exact ⟨c, by simp [matchUnit, hc], Or.inl hc⟩
      | cons b rest2 =>
        cases hb : isBLetter b with
        | true =>
          refine ⟨by simp [matchUnit, hc, hb], ?_⟩
          right; right
          exact ⟨c, b, by simp [matchUnit, hc, hb], hc, hb⟩
        | false =>
          refine ⟨by simp [matchUnit, hc, hb], ?_⟩
          right; left
          exact ⟨c, by simp [matchUnit, hc, hb], Or.inl hc⟩
    | false =>
      cases hb : isBLetter c with
      | true =>
        refine ⟨by simp [matchUnit, hc, hb], ?_⟩
        right; left
        exact ⟨c, by simp [matchUnit, hc, hb], Or.inr hb⟩
      | false =>
        refine ⟨by simp [matchUnit, hc, hb], ?_⟩
        left
        simp [matchUnit, hc, hb]


lemma matchSize_decomp (cs : List Char) (m : SizeMatch)
    (h : matchSize cs = some m) :
    ∃ w1 fr w2 w3, cs = w1 ++ m.intPart ++ fr ++ w2 ++ m.unitPart ++ w3
      ∧ SpaceRun w1 ∧ m.intPart ≠ [] ∧ DigitRun m.intPart
      ∧ (fr = [] ∨ fr = '.' :: m.fracPart ∧ m.fracPart ≠ [] ∧ DigitRun m.fracPart)
      ∧ SpaceRun w2 ∧ UnitShape isUnitLetter m.unitPart ∧ SpaceRun w3 := by
  simp only [matchSize] at h
  split_ifs at h with h1 h2
  injection h with hm
  subst hm
  dsimp only
  set r1 := cs.dropWhile isSpace with hr1
  set ds := r1.takeWhile Char.isDigit with hdsv
  set r2 := r1.dropWhile Char.isDigit with hr2
  set fds := (matchFrac r2).1 with hfds
  set r3 := (matchFrac r2).2 with hr3
  set r4 := r3.dropWhile isSpace with hr4
  set u := (matchUnit r4).1 with huv
  set r5 := (matchUnit r4).2 with hr5
  set w1 := cs.takeWhile isSpace with hw1
  set w2 := r3.takeWhile isSpace with hw2
  set w3 := r5.takeWhile isSpace with hw3
  have e1 : cs = w1 ++ r1 := by
    rw [hw1, hr1]; exact (List.takeWhile_append_dropWhile isSpace cs).symm
  have e2 : r1 = ds ++ r2 := by
    rw [hdsv, hr2]; exact (List.takeWhile_append_dropWhile Char.isDigit r1).symm
  have e4 : r3 = w2 ++ r4 := by
    rw [hw2, hr4]; exact (List.takeWhile_append_dropWhile isSpace r3).symm
  have e5 : r4 = u ++ r5 := by
    rw [huv, hr5]; exact (matchUnit_decomp r4).1
  have hr6 : r5.dropWhile isSpace = [] := by
    simpa [List.isEmpty_iff] using h2
  have e6 : r5 = w3 := by
    conv_lhs => rw [← List.takeWhile_append_dropWhile isSpace r5]
    rw [hr6, List.append_nil, hw3]
  have hsp1 : SpaceRun w1 := by
    intro c hc; rw [hw1] at hc; exact List.mem_takeWhile_imp hc
  have hsp2 : SpaceRun w2 := by
    intro c hc; rw [hw2] at hc; exact List.mem_takeWhile_imp hc
  have hsp3 : SpaceRun w3 := by
    intro c hc; rw [hw3] at hc; exact List.mem_takeWhile_imp hc
  have hds : ds ≠ [] := by
    intro hnil
    rw [hnil] at h1
    exact h1 rfl
  have hdig : DigitRun ds := by
    intro c hc; rw [hdsv] at hc; exact List.mem_takeWhile_imp hc
  have hus : UnitShape isUnitLetter u := by
    rw [huv]; exact (matchUnit_decomp r4).2
  rcases matchFrac_decomp r2 with ⟨hf1, hf2⟩ | ⟨hf1, hf2, hf3⟩
  · have hfds0 : fds = [] := by rw [hfds, hf1]
    have hr3r2 : r3 = r2 := by rw [hr3, hf2]
    refine ⟨w1, [], w2, w3, ?_, hsp1, hds, hdig, Or.inl rfl, hsp2, hus, hsp3⟩
    rw [e1, e2, ← hr3r2, e4, e5, e6]
    simp [List.append_assoc]
  · have hfr2 : r2 = '.' :: (fds ++ r3) := by rw [hfds, hr3]; exact hf1
    have hfne : fds ≠ [] := by rw [hfds]; exact hf2
    have hfdig : DigitRun fds := by
      intro c hc; rw [hfds] at hc; exact hf3 c hc
    refine ⟨w1, '.' :: fds, w2, w3, ?_, hsp1, hds, hdig,
      Or.inr ⟨rfl, hfne, hfdig⟩, hsp2, hus, hsp3⟩
    rw [e1, e2, hfr2, e4, e5, e6]
    simp [List.append_assoc]

/-! ## Head-forcing lemmas for refuting a size-form decomposition -/

lemma spacerun_split_head {w r : List Char} {c : Char} {t : List Char}
    (hw : SpaceRun w) (he : w ++ r = c :: t) (hc : isSpace c = false) :
    w = [] ∧ r = c :: t := by
  cases w with
  | nil => exact ⟨rfl, he⟩
  | cons x xs =>
    rw [List.cons_append] at he
    injection he with hx ht
    subst hx
    have hsp := hw x (by simp)
    rw [hc] at hsp
    exact absurd hsp (by decide)

lemma frshape_split_head {fr r : List Char} {c : Char} {t : List Char}
    (hfr : fr = [] ∨ ∃ fds, fr = '.' :: fds ∧ fds ≠ [] ∧ DigitRun fds)
    (he : fr ++ r = c :: t) (hc : c ≠ '.') : fr = [] ∧ r = c :: t := by
  rcases hfr with rfl | ⟨fds, rfl, h2, h3⟩
  · exact ⟨rfl, he⟩
  · rw [List.cons_append] at he
    injection he with h1 h2'
    exact absurd h1.symm hc

lemma unitshape_split_head {letter : Char → Bool} {u r : List Char} {c : Char}
    {t : List Char} (hu : UnitShape letter u) (he : u ++ r = c :: t)
    (hl : letter c = false) (hb : isBLetter c = false) :
    u = [] ∧ r = c :: t := by
  rcases hu with rfl | ⟨x, rfl, hx⟩ | ⟨x, y, rfl, hx, hy⟩
  · exact ⟨rfl, he⟩
  · rw [List.singleton_append] at he
    injection he with h1 h2
    subst h1
    rcases hx with hx | hx
    · rw [hl] at hx; exact absurd hx (by decide)
    · rw [hb] at hx; exact absurd hx (by decide)
  · rw [List.cons_append] at he
    injection he with h1 h2
    subst h1
    rw [hl] at hx
    exact absurd hx (by decide)

lemma no_spec_form_40P : ¬ SizeForm isSpecUnitLetter false "40P" := by
  rintro ⟨w1, ds, fr, w2, u, w3, heq, hw1, hne, hdig, hfr, hw2, hmid, hu, hw3⟩
  rw [hmid rfl, show ("40P".data : List Char) = ['4', '0', 'P'] from rfl] at heq
  simp only [List.append_assoc, List.nil_append] at heq
  replace heq := heq.symm
  obtain ⟨rfl, heq⟩ := spacerun_split_head hw1 heq (by decide)
  cases ds with
  | nil => exact hne rfl
  | cons d1 ds1 =>
    rw [List.cons_append] at heq
    injection heq with hd1 heqa
    subst hd1
    cases ds1 with
    | nil =>
      rw [List.nil_append] at heqa
      obtain ⟨rfl, heqb⟩ := frshape_split_head hfr heqa (by decide)
      obtain ⟨rfl, heqc⟩ := unitshape_split_head hu heqb (by decide) (by decide)
      exact absurd (hw3 '0' (by rw [heqc]; simp)) (by decide)
    | cons d2 ds2 =>
      rw [List.cons_append] at heqa
      injection heqa with hd2 heqb
      subst hd2
      cases ds2 with
      | nil =>
        rw [List.nil_append] at heqb
        obtain ⟨rfl, heqc⟩ := frshape_split_head hfr heqb (by decide)
        obtain ⟨rfl, heqd⟩ := unitshape_split_head hu heqc (by decide) (by decide)
        exact absurd (hw3 'P' (by rw [heqd]; simp)) (by decide)
      | cons d3 ds3 =>
        rw [List.cons_append] at heqb
        injection heqb with hd3 heqc
        subst hd3
        exact absurd (hdig 'P' (by simp)) (by decide)

lemma no_spec_form_empty : ¬ SizeForm isSpecUnitLetter false "" := by
  rintro ⟨w1, ds, fr, w2, u, w3, heq, hw1, hne, hdig, hfr, hw2, hmid, hu, hw3⟩
  rw [show (("".data) : List Char) = [] from rfl] at heq
  replace heq := heq.symm
  simp only [List.append_eq_nil] at heq
  exact hne (by tauto)

lemma no_spec_form_40spaceK : ¬ SizeForm isSpecUnitLetter false "40 K" := by
  rintro ⟨w1, ds, fr, w2, u, w3, heq, hw1, hne, hdig, hfr, hw2, hmid, hu, hw3⟩
  rw [hmid rfl, show ("40 K".data : List Char) = ['4', '0', ' ', 'K'] from rfl]
    at heq
  simp only [List.append_assoc, List.nil_append] at heq
  replace heq := heq.symm
  obtain ⟨rfl, heq⟩ := spacerun_split_head hw1 heq (by decide)
  cases ds with
  | nil => exact hne rfl
  | cons d1 ds1 =>
    rw [List.cons_append] at heq
    injection heq with hd1 heqa
    subst hd1
    cases ds1 with
    | nil =>
      rw [List.nil_append] at heqa
      obtain ⟨rfl, heqb⟩ := frshape_split_head hfr heqa (by decide)
      obtain ⟨rfl, heqc⟩ := unitshape_split_head hu heqb (by decide) (by decide)
      exact absurd (hw3 '0' (by rw [heqc]; simp)) (by decide)
    | cons d2 ds2 =>
      rw [List.cons_append] at heqa
      injection heqa with hd2 heqb
      subst hd2
      cases ds2 with
      | nil =>
        rw [List.nil_append] at heqb
        obtain ⟨rfl, heqc⟩ := frshape_split_head hfr heqb (by decide)
        obtain ⟨rfl, heqd⟩ := unitshape_split_head hu heqc (by decide) (by decide)
        exact absurd (hw3 'K' (by rw [heqd]; simp)) (by decide)
      | cons d3 ds3 =>
        rw [List.cons_append] at heqb
        injection heqb with hd3 heqc
        subst hd3
        exact absurd (hdig ' ' (by simp)) (by decide)

/-! ## Claim C5: which strings the parser rejects (corrected) -/

/-- C5 counterexample: three strings that do not match the claimed pattern
(number, optional unit letter from K/M/G/T with optional trailing B,
surrounded by optional whitespace) yet are not rejected by `parse_size`:
`"40P"` (the regex also accepts `P`, with no multiplier applied), `""` (a
falsy input yields "no ceiling" instead of an error), and `"40 K"`
(whitespace is also allowed between the number and the unit). -/
theorem C5_counterexample :
    (¬ SizeForm isSpecUnitLetter false "40P"
      ∧ parse_size (some "40P") = .ok (some 40))
    ∧ (¬ SizeForm isSpecUnitLetter false ""
      ∧ parse_size (some "") = .ok none)
    ∧ (¬ SizeForm isSpecUnitLetter false "40 K"
      ∧ parse_size (some "40 K") = .ok (some 40960)) :=
  ⟨⟨no_spec_form_40P, rfl⟩, ⟨no_spec_form_empty, rfl⟩,
    ⟨no_spec_form_40spaceK, rfl⟩⟩

/-- C5 (amended): every nonempty string that `parse_size` does not reject
matches the amended pattern — a non-negative decimal number, then an
optional unit letter drawn from K, M, G, T, P (case-insensitive, optional
trailing B) possibly separated from the number by whitespace, surrounded by
optional whitespace.  Contrapositively, every nonempty string outside this
pattern fails with the malformed-size error, and an empty input yields no
ceiling rather than a byte count. -/
theorem C5_amended_accepted_matches (s : String) (hne : s.data ≠ [])
    (hok : parse_size (some s) ≠ .error ()) :
    SizeForm isUnitLetter true s := by
  simp only [parse_size] at hok
  rw [if_neg (by simp [List.isEmpty_iff, hne])] at hok
  cases hm : matchSize (strip s.data) with
  | none => rw [hm] at hok; exact absurd rfl hok
  | some m =>
    obtain ⟨w1, fr, w2, w3, heq, hsp1, hds, hdig, hfr, hsp2, hus, hsp3⟩ :=
      matchSize_decomp (strip s.data) m hm
    obtain ⟨a, b, hab, hspa, hspb⟩ := strip_split s.data
    refine ⟨a ++ w1, m.intPart, fr, w2, m.unitPart, w3 ++ b, ?_, ?_, hds, hdig,
      ?_, hsp2, ?_, hus, ?_⟩
    · rw [hab, heq]
      simp [List.append_assoc]
    · intro c hc
      rcases List.mem_append.mp hc with h | h
      · exact hspa c h
      · exact hsp1 c h
    · rcases hfr with h | ⟨h1, h2, h3⟩
      · exact Or.inl h
      · exact Or.inr ⟨m.fracPart, h1, h2, h3⟩
    · intro hcontra
      exact absurd hcontra (by decide)
    · intro c hc
      rcases List.mem_append.mp hc with h | h
      · exact hsp3 c h
      · exact hspb c h

/-- C5 witness: `"40P"` is accepted by the parser and indeed matches the
amended pattern. -/
theorem C5_witness : SizeForm isUnitLetter true "40P" :=
  C5_amended_accepted_matches "40P" (by decide) (by decide)


/-! ## Acceptance lemmas for well-formed size strings -/

lemma matchSize_digits (ds : List Char) (h1 : ds ≠ []) (h2 : DigitRun ds) :
    matchSize ds = some ⟨ds, [], []⟩ := by
  have hnodrop : ds.dropWhile isSpace = ds :=
    dropWhile_all_false isSpace ds (fun c hc => digit_not_space (h2 c hc))
  have htake : ds.takeWhile Char.isDigit = ds := takeWhile_all_true _ ds h2
  have hdrop : ds.dropWhile Char.isDigit = [] := dropWhile_all_true _ ds h2
  simp only [matchSize, hnodrop, htake, hdrop]
  simp [matchFrac, matchUnit, List.isEmpty_iff, h1]

lemma matchSize_digits_unitlist (ds : List Char) (c : Char) (u' : List Char)
    (h1 : ds ≠ []) (h2 : DigitRun ds)
    (hmu : matchUnit (c :: u') = (c :: u', []))
    (hcd : c.isDigit = false) (hcs : isSpace c = false) (hcdot : ¬ c = '.')
    (hns : ∀ x ∈ u', isSpace x = false) :
    matchSize (ds ++ c :: u') = some ⟨ds, [], c :: u'⟩ := by
  have hnodrop : (ds ++ c :: u').dropWhile isSpace = ds ++ c :: u' :=
    dropWhile_all_false isSpace _ (by
      intro x hx
      rcases List.mem_append.mp hx with h | h
      · exact digit_not_space (h2 x h)
      · rw [List.mem_cons] at h
        rcases h with rfl | h
        · exact hcs
        · exact hns x h)
  obtain ⟨htake, hdrop⟩ := takeWhile_append_stop Char.isDigit ds c u' h2 hcd
  have hmf : matchFrac (c :: u') = ([], c :: u') := by simp [matchFrac, hcdot]
  have hds2 : (c :: u').dropWhile isSpace = c :: u' := by
    rw [List.dropWhile_cons, hcs]; simp
  simp only [matchSize, hnodrop, htake, hdrop, hmf, hds2, hmu]
  simp [List.isEmpty_iff, h1]

lemma parse_size_mk (l : List Char) (hl : l ≠ []) (m : SizeMatch) (v : Nat)
    (hstrip : strip l = l) (h : matchSize l = some m)
    (hv : sizeValue m = some v) :
    parse_size (some (String.mk l)) = .ok (some v) := by
  simp only [parse_size]
  rw [if_neg (by simp [List.isEmpty_iff, hl])]
  rw [hstrip, h]
  show (match sizeValue m with
    | none => (Except.error () : Except Unit (Option Nat))
    | some v => Except.ok (some v)) = Except.ok (some v)
  rw [hv]

lemma digitsToNat_nil : digitsToNat [] = 0 := rfl

lemma unitPow_nil : unitPow [] = 0 := rfl

lemma unitPow_le (u : List Char) : unitPow u ≤ 40 := by
  cases u with
  | nil => decide
  | cons c r =>
    show (if c.toUpper = 'K' then 10
      else if c.toUpper = 'M' then 20
      else if c.toUpper = 'G' then 30
      else if c.toUpper = 'T' then 40 else 0) ≤ 40
    split_ifs <;> omega

lemma sizeValue_nofrac (ds u : List Char) :
    sizeValue ⟨ds, [], u⟩ = pyIntOfScaledDecimal (digitsToNat ds) 0 (unitPow u) := by
  simp [sizeValue, digitsToNat_nil]

lemma rhe_mul_left (q b : ℕ) (hb : 0 < b) : rhe (q * b) b = q := by
  simp only [rhe]
  rw [Nat.mul_div_cancel q hb, Nat.mul_mod_left]
  simp [hb]

lemma findShift_found (N T : ℕ) :
    ∀ (fuel j : ℕ), T ≤ N * 2 ^ (j + fuel) →
      T ≤ N * 2 ^ (findShift N T fuel j) := by
  intro fuel
  induction fuel with
  | zero => intro j h; simpa [findShift] using h
  | succ f ih =>
    intro j h
    by_cases hc : T ≤ N * 2 ^ j
    · rw [show findShift N T (f + 1) j = j from by simp [findShift, hc]]
      exact hc
    · rw [show findShift N T (f + 1) j = findShift N T f (j + 1) from by
        simp [findShift, hc]]
      exact ih (j + 1) (by rw [show j + 1 + f = j + (f + 1) from by omega]; exact h)

lemma findShift_ge (N T b : ℕ) (hb : ∀ i, i < b → N * 2 ^ i < T) :
    ∀ (fuel j : ℕ), b ≤ j + fuel → b ≤ findShift N T fuel j := by
  intro fuel
  induction fuel with
  | zero => intro j h; simpa [findShift] using h
  | succ f ih =>
    intro j h
    by_cases hc : T ≤ N * 2 ^ j
    · have hjb : b ≤ j := by
        by_contra hlt
        exact absurd hc (Nat.not_le.2 (hb j (by omega)))
      simpa [findShift, hc] using hjb
    · rw [show findShift N T (f + 1) j = findShift N T f (j + 1) from by
        simp [findShift, hc]]
      exact ih (j + 1) (by omega)

lemma pyInt_exact_small (n p : ℕ) (hn : n < 2 ^ 53) (hp : p ≤ 40) :
    pyIntOfScaledDecimal n 0 p = some (n * 2 ^ p) := by
  by_cases h0 : n = 0
  · subst h0
    simp [pyIntOfScaledDecimal]
  have hNpos : 0 < n := Nat.pos_of_ne_zero h0
  have hn1024 : n < 2 ^ 1024 :=
    lt_of_lt_of_le hn (Nat.pow_le_pow_right (by norm_num) (by norm_num))
  simp only [pyIntOfScaledDecimal, pow_zero, one_mul]
  rw [if_neg h0, if_neg (Nat.not_le.2 hn1024),
    if_neg (Nat.not_lt.2 (Nat.one_le_iff_ne_zero.2 (by positivity)))]
  set j := findShift n (2 ^ 1024) 1100 0 with hj
  have hfound : 2 ^ 1024 ≤ n * 2 ^ j := by
    rw [hj]
    apply findShift_found
    calc (2 : ℕ) ^ 1024 ≤ 2 ^ (0 + 1100) :=
          Nat.pow_le_pow_right (by norm_num) (by norm_num)
      _ = 1 * 2 ^ (0 + 1100) := (one_mul _).symm
      _ ≤ n * 2 ^ (0 + 1100) := Nat.mul_le_mul_right _ hNpos
  have hge : (972 : ℕ) ≤ j := by
    rw [hj]
    apply findShift_ge
    · intro i hi
      calc n * 2 ^ i < 2 ^ 53 * 2 ^ i :=
            mul_lt_mul_of_pos_right hn (pow_pos (by norm_num) i)
        _ ≤ 2 ^ 53 * 2 ^ 971 :=
            Nat.mul_le_mul_left _ (Nat.pow_le_pow_right (by norm_num) (by omega))
        _ = 2 ^ 1024 := by rw [← pow_add]
    · omega
  have hsplit : n * 2 ^ j = n * 2 ^ (j - 972) * 2 ^ 972 := by
    rw [Nat.mul_assoc, ← pow_add, Nat.sub_add_cancel hge]
  have hs : rhe (n * 2 ^ j) (2 ^ 972) = n * 2 ^ (j - 972) := by
    rw [hsplit]
    exact rhe_mul_left _ _ (pow_pos (by norm_num) 972)
  rw [hs]
  have hsmall : n * 2 ^ p < 2 ^ 1024 :=
    calc n * 2 ^ p < 2 ^ 53 * 2 ^ p :=
          mul_lt_mul_of_pos_right hn (pow_pos (by norm_num) p)
      _ ≤ 2 ^ 53 * 2 ^ 40 :=
          Nat.mul_le_mul_left _ (Nat.pow_le_pow_right (by norm_num) hp)
      _ ≤ 2 ^ 1024 := by
          rw [← pow_add]
          exact Nat.pow_le_pow_right (by norm_num) (by norm_num)
  have hnov : ¬ 2 ^ 1024 * 2 ^ j ≤ n * 2 ^ (j - 972) * 2 ^ 972 * 2 ^ p := by
    rw [← hsplit]
    intro hcon
    have hlt : n * 2 ^ j * 2 ^ p < 2 ^ 1024 * 2 ^ j := by
      calc n * 2 ^ j * 2 ^ p = n * 2 ^ p * 2 ^ j := by ring
        _ < 2 ^ 1024 * 2 ^ j :=
            mul_lt_mul_of_pos_right hsmall (pow_pos (by norm_num) j)
    omega
  rw [if_neg hnov]
  have hval : n * 2 ^ (j - 972) * 2 ^ (972 + p) = n * 2 ^ p * 2 ^ j := by
    rw [Nat.mul_assoc, ← pow_add]
    rw [show j - 972 + (972 + p) = p + j from by omega, pow_add, ← Nat.mul_assoc]
  rw [hval, Nat.mul_div_cancel _ (pow_pos (by norm_num) j)]

lemma unitLetter_facts (c : Char) (h : c ∈ unitLetterChars) :
    isUnitLetter c = true ∧ c.isDigit = false ∧ isSpace c = false ∧ ¬ c = '.' := by
  fin_cases h <;> refine ⟨by decide, by decide, by decide, by decide⟩

lemma bLetter_facts (b : Char) (h : b ∈ bLetterChars) :
    isBLetter b = true ∧ b.isDigit = false ∧ isSpace b = false ∧ ¬ b = '.'
      ∧ isUnitLetter b = false := by
  fin_cases h <;> refine ⟨by decide, by decide, by decide, by decide, by decide⟩

lemma parse_digits_units (ds u : List Char) (h1 : ds ≠ []) (h2 : DigitRun ds)
    (hn : digitsToNat ds < 2 ^ 53) (hmu : matchUnit u = (u, []))
    (hchar : ∀ x ∈ u, x.isDigit = false ∧ isSpace x = false ∧ ¬ x = '.') :
    parse_size (some (String.mk (ds ++ u)))
      = .ok (some (digitsToNat ds * 2 ^ unitPow u)) := by
  have hns : ∀ c ∈ ds ++ u, isSpace c = false := by
    intro c hc
    rcases List.mem_append.mp hc with h | h
    · exact digit_not_space (h2 c h)
    · exact (hchar c h).2.1
  have hmatch : matchSize (ds ++ u) = some ⟨ds, [], u⟩ := by
    cases u with
    | nil => rw [List.append_nil]; exact matchSize_digits ds h1 h2
    | cons c u' =>
      obtain ⟨hcd, hcs, hcdot⟩ := hchar c (by simp)
      exact matchSize_digits_unitlist ds c u' h1 h2 hmu hcd hcs hcdot
        (fun x hx => (hchar x (by simp [hx])).2.1)
  have hv : sizeValue ⟨ds, [], u⟩ = some (digitsToNat ds * 2 ^ unitPow u) := by
    rw [sizeValue_nofrac]
    exact pyInt_exact_small (digitsToNat ds) (unitPow u) hn (unitPow_le u)
  exact parse_size_mk _ (by simp [h1]) _ _ (strip_of_no_space _ hns) hmatch hv

/-! ## Claim C6: values of well-formed size strings (corrected) -/

/-- C6 counterexample: the source computes the number through a Python
float, so the result is not always the written number nor a truncation:
`9007199254740993` (that is `2^53 + 1`) parses to `9007199254740992` — the
decimal is rounded to the nearest representable double — and
`4503599627370496.75` parses to `4503599627370497`: the fractional part
makes the value round up across an integer boundary instead of being
truncated away. -/
theorem C6_counterexample :
    parse_size (some "9007199254740993") = .ok (some 9007199254740992)
    ∧ parse_size (some "9007199254740993") ≠ .ok (some 9007199254740993)
    ∧ parse_size (some "4503599627370496.75") = .ok (some 4503599627370497)
    ∧ parse_size (some "4503599627370496.75") ≠ .ok (some 4503599627370496) := by
  refine ⟨rfl, ?_, rfl, ?_⟩
  · intro h
    rw [show parse_size (some "9007199254740993")
        = Except.ok (some 9007199254740992) from rfl] at h
    injection h with h'
    injection h' with h2
    omega
  · intro h
    rw [show parse_size (some "4503599627370496.75")
        = Except.ok (some 4503599627370497) from rfl] at h
    injection h with h'
    injection h' with h2
    omega

/-- C6 (amended): the value semantics of the parser go through Python's
float.  An absent or empty input yields no ceiling.  For every number below
`2^53` (the double's exact integer range), a bare digit run is the number
itself in bytes, and a digit run followed by any spelling of the unit group
— a unit letter K/M/G/T/P in either case, an optional trailing b/B, or a
bare b/B — is the number times the unit's power of 1024 (K = 2^10,
M = 2^20, G = 2^30, T = 2^40; P, b and B scale by 1).  A fractional number
is rounded to the nearest double and then truncated, which agrees with
exact truncation for in-range dyadic fractions (`1.5K = 1536`, `0.5 = 0`)
but not in general (see the counterexample).  In particular
`parse("40K") = 40*1024`, `parse("2M") = 2*1024*1024`, `parse("100") = 100`
and `parse(None) = None`. -/
theorem C6_parse_size_values :
    parse_size none = .ok none
    ∧ parse_size (some "") = .ok none
    ∧ (∀ ds : List Char, ds ≠ [] → DigitRun ds → digitsToNat ds < 2 ^ 53 →
        parse_size (some (String.mk ds)) = .ok (some (digitsToNat ds)))
    ∧ (∀ ds u : List Char, ds ≠ [] → DigitRun ds → digitsToNat ds < 2 ^ 53 →
        UnitChars u →
        parse_size (some (String.mk (ds ++ u)))
          = .ok (some (digitsToNat ds * 2 ^ unitPow u)))
    ∧ unitPow ['K'] = 10 ∧ unitPow ['k'] = 10 ∧ unitPow ['K', 'B'] = 10
    ∧ unitPow ['M'] = 20 ∧ unitPow ['m'] = 20 ∧ unitPow ['G'] = 30
    ∧ unitPow ['T'] = 40 ∧ unitPow ['B'] = 0 ∧ unitPow ['P'] = 0
    ∧ parse_size (some "1.5K") = .ok (some 1536)
    ∧ parse_size (some "0.5") = .ok (some 0)
    ∧ parse_size (some "40kb") = .ok (some (40 * 1024))
    ∧ parse_size (some "3B") = .ok (some 3)
    ∧ parse_size (some "40K") = .ok (some (40 * 1024))
    ∧ parse_size (some "2M") = .ok (some (2 * 1024 * 1024))
    ∧ parse_size (some "100") = .ok (some 100) := by
  refine ⟨rfl, rfl, ?_, ?_, rfl, rfl, rfl, rfl, rfl, rfl, rfl, rfl, rfl,
    rfl, rfl, rfl, rfl, rfl, rfl, rfl⟩
  · intro ds h1 h2 hn
    have h := parse_digits_units ds [] h1 h2 hn rfl
      (by intro x hx; exact absurd hx (List.not_mem_nil x))
    rw [List.append_nil, unitPow_nil, pow_zero, mul_one] at h
    exact h
  · intro ds u h1 h2 hn hu
    rcases hu with rfl | ⟨c, rfl, hc⟩ | ⟨c, b, rfl, hc, hb⟩
    · exact parse_digits_units ds [] h1 h2 hn rfl
        (by intro x hx; exact absurd hx (List.not_mem_nil x))
    · rw [List.mem_append] at hc
      rcases hc with hc | hc
      · obtain ⟨hl1, hd1, hs1, hdot1⟩ := unitLetter_facts c hc
        exact parse_digits_units ds [c] h1 h2 hn (by simp [matchUnit, hl1])
          (by intro x hx
              rw [List.mem_singleton] at hx
              subst hx
              exact ⟨hd1, hs1, hdot1⟩)
      · obtain ⟨hb1, hd1, hs1, hdot1, hnl⟩ := bLetter_facts c hc
        exact parse_digits_units ds [c] h1 h2 hn
          (by simp [matchUnit, hnl, hb1])
          (by intro x hx
              rw [List.mem_singleton] at hx
              subst hx
              exact ⟨hd1, hs1, hdot1⟩)
    · obtain ⟨hl1, hd1, hs1, hdot1⟩ := unitLetter_facts c hc
      obtain ⟨hb1, hd2, hs2, hdot2, hnl2⟩ := bLetter_facts b hb
      exact parse_digits_units ds [c, b] h1 h2 hn
        (by simp [matchUnit, hl1, hb1])
        (by intro x hx
            rw [List.mem_cons, List.mem_singleton] at hx
            rcases hx with rfl | rfl
            · exact ⟨hd1, hs1, hdot1⟩
            · exact ⟨hd2, hs2, hdot2⟩)

/-- C6 witness: bare digits and a lowercase-with-B unit at concrete
inputs. -/
theorem C6_witness :
    parse_size (some (String.mk ['7'])) = .ok (some (digitsToNat ['7']))
    ∧ parse_size (some (String.mk (['4', '2'] ++ ['k', 'B'])))
        = .ok (some (digitsToNat ['4', '2'] * 2 ^ unitPow ['k', 'B'])) :=
  ⟨C6_parse_size_values.2.2.1 ['7'] (by decide)
      (by intro c hc; rw [List.mem_singleton] at hc; subst hc; decide)
      (by decide),
   C6_parse_size_values.2.2.2.1 ['4', '2'] ['k', 'B'] (by decide)
      (by intro c hc
          rw [List.mem_cons, List.mem_singleton] at hc
          rcases hc with rfl | rfl <;> decide)
      (by decide)
      (Or.inr (Or.inr ⟨'k', 'B', rfl, by decide, by decide⟩))⟩


/-! ## Claim C7: flat-mode collision resolution -/

lemma uniqueFrom_spec (existing : List (List Char)) (stem ext : List Char) :
    ∀ (fuel i j : Nat), j < fuel →
      candName stem ext (i + j) ∉ existing →
      (∀ k < j, candName stem ext (i + k) ∈ existing) →
      uniqueFrom existing stem ext i fuel = some (candName stem ext (i + j)) := by
  intro fuel
  induction fuel with
  | zero => intro i j hj hfree hbusy; exact absurd hj (Nat.not_lt_zero j)
  | succ f ih =>
    intro i j hj hfree hbusy
    by_cases hi : candName stem ext i ∈ existing
    · cases j with
      | zero =>
        rw [Nat.add_zero] at hfree
        exact absurd hi hfree
      | succ j' =>
        have hstep : uniqueFrom existing stem ext i (f + 1)
            = uniqueFrom existing stem ext (i + 1) f := by
          simp [uniqueFrom, hi]
        rw [hstep]
        have hrec := ih (i + 1) j' (by omega)
          (by rw [show i + 1 + j' = i + (j' + 1) from by omega]; exact hfree)
          (by intro k hk
              rw [show i + 1 + k = i + (k + 1) from by omega]
              exact hbusy (k + 1) (by omega))
        rw [hrec, show i + 1 + j' = i + (j' + 1) from by omega]
    · cases j with
      | zero =>
        rw [Nat.add_zero]
        simp [uniqueFrom, hi]
      | succ j' =>
        have h0 := hbusy 0 (by omega)
        rw [Nat.add_zero] at h0
        exact absurd h0 hi

/-- C7: in flattened mode, if the plain candidate name is free it is used as
is; if it is taken, the resolver returns `stem-j.ext` for the first index
`j ≥ 1` whose name is unused (provided the loop, modelled with fuel, reaches
it); concretely, with `foo.vgm` already present, a second `foo.vgm`
candidate resolves to `foo-1.vgm`. -/
theorem C7_flat_disambiguation (existing : List (List Char)) (name : List Char)
    (fuel : Nat) :
    (name ∉ existing → _get_unique_flat_path fuel existing name = some name)
    ∧ (∀ j, name ∈ existing → j < fuel →
        candName (rsplitDot name).1 (rsplitDot name).2 (1 + j) ∉ existing →
        (∀ k < j, candName (rsplitDot name).1 (rsplitDot name).2 (1 + k) ∈ existing) →
        _get_unique_flat_path fuel existing name
          = some (candName (rsplitDot name).1 (rsplitDot name).2 (1 + j)))
    ∧ _get_unique_flat_path 2 [String.data "foo.vgm"] (String.data "foo.vgm")
        = some (String.data "foo-1.vgm") := by
  refine ⟨?_, ?_, ?_⟩
  · intro h
    simp [_get_unique_flat_path, h]
  · intro j hmem hj hfree hbusy
    have hgo : _get_unique_flat_path fuel existing name
        = uniqueFrom existing (rsplitDot name).1 (rsplitDot name).2 1 fuel := by
      simp [_get_unique_flat_path, hmem]
    rw [hgo]
    exact uniqueFrom_spec existing _ _ fuel 1 j hj hfree hbusy
  · rfl

/-- C7 witness: a free plain name resolves to itself. -/
theorem C7_witness :
    _get_unique_flat_path 3 [] (String.data "a.vgm")
      = some (String.data "a.vgm") :=
  (C7_flat_disambiguation [] (String.data "a.vgm") 3).1 (by simp)

/-! ## Claim C8: skip-existing in flat mode (corrected) -/

/-- C8 counterexample: in flat mode with skip-existing set, once the plain
output `foo.vgm` exists (e.g. created by the first same-named source in the
run), the second same-named source is skipped (`none`) rather than being
processed and written as `foo-1.vgm` as the claim's conclusion states. -/
theorem C8_counterexample :
    flat_dest true [String.data "foo.vgm"] (String.data "foo.vgm") 2 = none
    ∧ flat_dest true [String.data "foo.vgm"] (String.data "foo.vgm") 2
        ≠ some (String.data "foo-1.vgm") := by
  constructor
  · rfl
  · intro h
    rw [show flat_dest true [String.data "foo.vgm"] (String.data "foo.vgm") 2
        = none from rfl] at h
    exact Option.noConfusion h

/-- C8 (amended): with skip-existing set, the existence check compares only
the plain destination name: if it exists the job is skipped with no
disambiguation attempted; if it does not exist, the job proceeds and the
resolver returns the plain name itself — so under skip-existing no
disambiguated name is ever produced, and a second same-named source whose
predecessor published the plain output is skipped.  Without skip-existing
the resolver runs unconditionally. -/
theorem C8_skip_plain_only (skipExisting : Bool) (existing : List (List Char))
    (name : List Char) (fuel : Nat) :
    (skipExisting = true → name ∈ existing →
      flat_dest skipExisting existing name fuel = none)
    ∧ (skipExisting = true → name ∉ existing →
      flat_dest skipExisting existing name fuel = some name)
    ∧ (skipExisting = false →
      flat_dest skipExisting existing name fuel
        = _get_unique_flat_path fuel existing name) := by
  refine ⟨?_, ?_, ?_⟩
  · intro hs hm
    subst hs
    simp [flat_dest, hm]
  · intro hs hm
    subst hs
    simp [flat_dest, hm, _get_unique_flat_path]
  · intro hs
    subst hs
    simp [flat_dest]

/-- C8 witness: with skip-existing and a free plain name, the plain name is
used unchanged. -/
theorem C8_witness :
    flat_dest true [] (String.data "b.vgm") 1 = some (String.data "b.vgm") :=
  (C8_skip_plain_only true [] (String.data "b.vgm") 1).2.1 rfl (by simp)

end VGZ
